import Mathlib

/-!
# Verification of the résumé text extractor

Shallow embedding of `src/scripts/parse-resume.ts`: a heuristic extractor
that turns the linearized plain text of a résumé into a structured record
(header/contact, summary, skills, experience, projects, education,
certifications).

Strings are modelled as `List Char` (`Str`); JavaScript string methods
(`split`, `trim`, `toLowerCase`, regular-expression tests) are embedded as
executable functions on `Str`.  Each extractor keeps the name and the
control structure of its source function.
-/

set_option maxRecDepth 4000

namespace ResumeExtract

/-- Strings, modelled as lists of characters. -/
abbrev Str := List Char

/-- Coerce a Lean string literal to the character-list model. -/
def str (s : String) : Str := s.data

/-- JavaScript whitespace (for `trim`, `\s`). -/
def isWs (c : Char) : Bool := c.isWhitespace

/-- Drop trailing characters satisfying nothing beyond `isWs` (helper of `trimStr`). -/
def dropTrail (s : Str) : Str := (s.reverse.dropWhile isWs).reverse

/-- JavaScript `String.prototype.trim`. -/
def trimStr (s : Str) : Str := dropTrail (s.dropWhile isWs)

/-- JavaScript `String.prototype.toLowerCase` (ASCII case folding). -/
def lowerStr (s : Str) : Str := s.map Char.toLower

/-- Split on every character satisfying `p`, keeping empty segments:
the semantics of JavaScript `split` with a single-character-class regex. -/
def splitP (p : Char → Bool) (s : Str) : List Str :=
  s.foldr
    (fun c acc =>
      if p c then [] :: acc
      else
        match acc with
        | t :: rest => (c :: t) :: rest
        | [] => [[c]])
    [[]]

/-- JavaScript `split('\n')`. -/
def splitNl (s : Str) : List Str := splitP (fun c => c = '\n') s

/-- JavaScript `split('|')`. -/
def splitPipe (s : Str) : List Str := splitP (fun c => c = '|') s

/-- `needle` occurs as a contiguous substring of `hay`. -/
def hasSubstr (needle hay : Str) : Bool :=
  (List.range (hay.length + 1)).any (fun i => needle.isPrefixOf (hay.drop i))

/-- Walk a list skipping elements already seen (the insertion behaviour
of a JavaScript `Set`). -/
def firstSeenAux {α : Type} [DecidableEq α] : List α → List α → List α
  | [], _ => []
  | a :: as, seen =>
      if a ∈ seen then firstSeenAux as seen else a :: firstSeenAux as (seen ++ [a])

/-- First-occurrence-preserving deduplication: the order in which
`Array.from(new Set(xs))` lists the distinct elements of `xs`. -/
def firstSeen {α : Type} [DecidableEq α] (l : List α) : List α := firstSeenAux l []

theorem dropWhile_len_le {α : Type} (p : α → Bool) (l : List α) :
    (l.dropWhile p).length ≤ l.length := by
  induction l with
  | nil => simp
  | cons a l ih =>
      by_cases h : p a
      · simp only [List.dropWhile_cons, h, if_true, List.length_cons]
        omega
      · simp [List.dropWhile_cons, h]

/-- JavaScript regex word character `\w` = `[A-Za-z0-9_]`. -/
def isWordChar (c : Char) : Bool := c.isAlpha || c.isDigit || c = '_'

/-! ## Header / contact extractor (`extractHeader`) -/

/-- The contact bundle built by `extractHeader`; the source always
populates every field, defaulting to the empty string. -/
structure ContactBundle where
  email : Str
  phone : Str
  website : Str
  linkedin : Str
  github : Str
  location : Str
deriving DecidableEq, Repr

/-- `/@/.test(p)` -/
def hasAt (s : Str) : Bool := s.any (fun c => c = '@')

/-- `/\./.test(p)` -/
def hasDot (s : Str) : Bool := s.any (fun c => c = '.')

/-- Character class `[\d\s().-]` of the phone pattern. -/
def phoneCls (c : Char) : Bool :=
  c.isDigit || isWs c || c = '(' || c = ')' || c = '.' || c = '-'

/-- `/\+?\d[\d\s().-]{7,}\d/.test(p)`: somewhere in the token, a digit
followed by at least seven characters of the class and a final digit
(the optional leading `+` never affects whether a match exists). -/
def phoneTest (s : Str) : Bool :=
  (List.range s.length).any (fun i =>
    match s.drop i with
    | c :: rest =>
        c.isDigit &&
        (List.range rest.length).any (fun k =>
          decide (7 ≤ k) && (rest.take k).all phoneCls &&
          (match rest.drop k with
           | d :: _ => d.isDigit
           | [] => false))
    | [] => false)

/-- `/linkedin\.com/i.test(p)` -/
def linkedinTest (s : Str) : Bool := hasSubstr (str "linkedin.com") (lowerStr s)

/-- `/github\.com/i.test(p)` -/
def githubTest (s : Str) : Bool := hasSubstr (str "github.com") (lowerStr s)

/-- The website predicate of the source, line 70:
`/\./.test(p) && !/@/.test(p) && /malik|sha256|http/i.test(p)` —
note the hardcoded substring allowlist. -/
def websiteTest (s : Str) : Bool :=
  hasDot s && !hasAt s &&
    (hasSubstr (str "malik") (lowerStr s) || hasSubstr (str "sha256") (lowerStr s) ||
      hasSubstr (str "http") (lowerStr s))

/-- `parts.find(p => ...) || ''` -/
def findTok (p : Str → Bool) (parts : List Str) : Str := (parts.find? p).getD []

/-- The pipe-separated token list of the contact line:
`secondLine.split('|').map(s => s.trim()).filter(Boolean)`. -/
def contactParts (secondLine : Str) : List Str :=
  ((splitPipe secondLine).map trimStr).filter (fun s => !s.isEmpty)

/-- The second element of a list, `xs[1] || ''`. -/
def secondD (xs : List Str) : Str := (xs.drop 1).headD []

/-- `lines.filter(l => l.trim().length > 0)` -/
def headerNonEmpty (lines : List Str) : List Str :=
  lines.filter (fun l => !(trimStr l).isEmpty)

/-- The contact-line tokens of `extractHeader`. -/
def headerParts (lines : List Str) : List Str :=
  contactParts (secondD (headerNonEmpty lines))

/-- `extractHeader`: name from the first non-blank line, contact bundle
from the second, each contact field found independently. -/
def extractHeader (lines : List Str) : Option Str × ContactBundle :=
  let firstLine := (headerNonEmpty lines).headD []
  let name : Option Str := if firstLine.isEmpty then none else some (trimStr firstLine)
  let parts := headerParts lines
  (name,
   { email := findTok hasAt parts
     phone := findTok phoneTest parts
     website := findTok websiteTest parts
     linkedin := findTok linkedinTest parts
     github := findTok githubTest parts
     location := [] })

/-! ## Section segmenter (`parseSections`) -/

/-- The six section keys, in the fixed order of `headerLabels`. -/
def labelKeys : List String :=
  ["summary", "education", "experience", "skills", "projects", "certifications"]

/-- `s` consists of one-or-more whitespace characters followed by exactly `w`
(the `\s+` part of the `Professional\s+Experience` / `Technical\s+Skills`
label patterns). -/
def wsPlusThen (w : Str) (s : Str) : Bool :=
  match s with
  | c :: _ => isWs c && s.dropWhile isWs = w
  | [] => false

/-- Whole-line, case-insensitive match of one section label:
`new RegExp('^' + label.source + '$', 'i').test(line)`. -/
def labelMatch (key : String) (line : Str) : Bool :=
  let l := lowerStr line
  match key with
  | "summary" => l = str "summary" || l = str "objective"
  | "education" => l = str "education"
  | "experience" =>
      l = str "experience" ||
        ((str "professional").isPrefixOf l && wsPlusThen (str "experience") (l.drop 12))
  | "skills" =>
      l = str "skills" ||
        ((str "technical").isPrefixOf l && wsPlusThen (str "skills") (l.drop 9))
  | "projects" => l = str "projects"
  | "certifications" => l = str "certifications"
  | _ => false

/-- One pass over the lines: at each line, every not-yet-seen label whose
anchored pattern matches the line is recorded with the line index. -/
def headerScanAux : List Str → Nat → List String → List (String × Nat)
  | [], _, _ => []
  | l :: rest, i, seen =>
      let newly := labelKeys.filter (fun k => !seen.contains k && labelMatch k l)
      newly.map (fun k => (k, i)) ++ headerScanAux rest (i + 1) (seen ++ newly)

/-- The `headerLines` array before sorting. -/
def headerScan (lines : List Str) : List (String × Nat) := headerScanAux lines 0 []

/-- Stable insertion of one entry by line index (models the stable
JavaScript `sort((a, b) => a.lineIndex - b.lineIndex)`). -/
def insertByIdx (x : String × Nat) : List (String × Nat) → List (String × Nat)
  | [] => [x]
  | y :: ys => if x.2 < y.2 then x :: y :: ys else y :: insertByIdx x ys

/-- Stable sort by line index. -/
def sortByIdx (l : List (String × Nat)) : List (String × Nat) := l.foldr insertByIdx []

/-- `text.split('\n').map(l => l.trim())`: the positional, blank-inclusive
trimmed line sequence. -/
def trimmedLines (text : Str) : List Str := (splitNl text).map trimStr

/-- The sorted `headerLines` of `parseSections`. -/
def sortedHeaderLines (text : Str) : List (String × Nat) :=
  sortByIdx (headerScan (trimmedLines text))

/-- Index of the first recognized header line (or the line count when no
label matched): the end of the header region. -/
def firstHeaderIdx (text : Str) : Nat :=
  match sortedHeaderLines text with
  | [] => (trimmedLines text).length
  | e :: _ => e.2

/-- Half-open line-index regions `(key, start, stop)` of the recognized
sections: each runs from just after its own header line to the next
header line (or the end of the text). -/
def regionsOf : List (String × Nat) → Nat → List (String × Nat × Nat)
  | [], _ => []
  | (k, i) :: rest, n =>
      (k, i + 1, (match rest with | [] => n | (_, j) :: _ => j)) :: regionsOf rest n

/-- The section regions of a text. -/
def sectionRegions (text : Str) : List (String × Nat × Nat) :=
  regionsOf (sortedHeaderLines text) (trimmedLines text).length

/-- `lines.slice(a, b).join('\n').trim()` -/
def sliceJoin (lines : List Str) (a b : Nat) : Str :=
  trimStr (List.intercalate (str "\n") ((lines.drop a).take (b - a)))

/-- The `sections` map of `parseSections`: the header region text plus one
entry per recognized label. -/
def sections (text : Str) : List (String × Str) :=
  ("header", sliceJoin (trimmedLines text) 0 (firstHeaderIdx text)) ::
    (sectionRegions text).map (fun r => (r.1, sliceJoin (trimmedLines text) r.2.1 r.2.2))

/-- `sections[key]`, `undefined` when the label was not recognized. -/
def sectionGet (text : Str) (k : String) : Option Str :=
  ((sections text).find? (fun e => e.1 == k)).map (fun e => e.2)

/-- The non-blank line list returned by `parseSections`
(`lines.filter(l => l.length > 0)`). -/
def contentLines (text : Str) : List Str :=
  (trimmedLines text).filter (fun l => !l.isEmpty)

/-! ## List extractor (`extractList`, certifications) -/

/-- Case-insensitive: the line begins with the word `w` followed by a word
boundary (`^\b(?:...)\b` with the first character of `w` a word character). -/
def startsWithWord (w : Str) (s : Str) : Bool :=
  w.isPrefixOf (lowerStr s) &&
    (match (lowerStr s).drop w.length with
     | [] => true
     | c :: _ => !isWordChar c)

/-- `/^\b(?:Skills|Technical Skills|SKILLS)\b/i.test(s)` -/
def startsSectionWord (s : Str) : Bool :=
  startsWithWord (str "skills") s || startsWithWord (str "technical skills") s

/-- `extractList`: split on newlines, bullet glyphs and hyphens, trim,
drop empties and leaked section-header words. -/
def extractList (sec : Str) : List Str :=
  ((splitP (fun c => c = '\n' || c = '•' || c = '-') sec).map trimStr).filter
    (fun s => !s.isEmpty && !startsSectionWord s)

/-! ## Experience extractor (`extractExperience`) -/

/-- One experience entry. -/
structure ExpEntry where
  company : Str
  role : Str
  duration : Str
  location : Str
  bullets : List Str
deriving DecidableEq, Repr

/-- `\b\d{4}\b` matches at position `i` of `s`. -/
def yearAt (s : Str) (i : Nat) : Bool :=
  ((s.drop i).take 4).length = 4 && ((s.drop i).take 4).all Char.isDigit &&
    (i = 0 || !isWordChar (s.getD (i - 1) ' ')) &&
    (match s.drop (i + 4) with
     | [] => true
     | c :: _ => !isWordChar c)

/-- `/(\b\d{4}\b|Present)/.test(line)` (no `i` flag: `Present` is
case-sensitive). -/
def yearOrPresent (s : Str) : Bool :=
  (List.range s.length).any (fun i => yearAt s i) || hasSubstr (str "Present") s

/-- `/[A-Za-z]/.test(line)` -/
def hasAlphaCh (s : Str) : Bool := s.any Char.isAlpha

/-- The case-folded prefixes at which the month alternation
`Jan(?:uary)?|Feb(?:ruary)?|...|Sep(?:t|tember)|...` can match
(note `Sep` requires `sept`). -/
def monthPfx : List Str :=
  [str "jan", str "feb", str "mar", str "apr", str "may", str "jun", str "jul",
   str "aug", str "sept", str "oct", str "nov", str "dec"]

/-- `line.match(monthRe)?.index`: the leftmost position where a month-name
alternative matches, case-insensitively. -/
def monthIdx (s : Str) : Option Nat :=
  (List.range s.length).find? (fun i =>
    monthPfx.any (fun m => m.isPrefixOf ((lowerStr s).drop i)))

/-- Split a company/duration line at the first month-name occurrence. -/
def splitCompanyLine (line : Str) : Str × Str :=
  match monthIdx line with
  | some i => (trimStr (line.take i), trimStr (line.drop i))
  | none => (line, [])

/-- `rl.lastIndexOf(',')` -/
def lastCommaIdx (s : Str) : Option Nat :=
  (List.range s.length).reverse.find? (fun i => s.getD i ' ' = ',')

/-- Split a role line at its last comma into role and location. -/
def splitRoleLine (rl : Str) : Str × Str :=
  match lastCommaIdx rl with
  | some j => (trimStr (rl.take j), trimStr (rl.drop (j + 1)))
  | none => (trimStr rl, [])

/-- `line.replace(/^•\s*/, '')` -/
def stripBulletPfx (l : Str) : Str :=
  match l with
  | '•' :: rest => rest.dropWhile isWs
  | _ => l

/-- `line.startsWith('• ')` -/
def startsBullet (l : Str) : Bool := (str "• ").isPrefixOf l

/-- Fold an unmarked continuation line into the last collected bullet
(or start a stray bullet when none exists yet). -/
def appendCont (acc : List Str) (l : Str) : List Str :=
  match acc.getLast? with
  | none => [l]
  | some last => acc.dropLast ++ [trimStr (last ++ ' ' :: l)]

/-- The bullet-collection sub-loop of `extractExperience`: consume lines
until one contains a year token or `Present`; returns the collected
bullets and the unconsumed lines. -/
def bulletLoop : List Str → List Str → List Str × List Str
  | [], acc => (acc, [])
  | l :: rest, acc =>
      if yearOrPresent l then (acc, l :: rest)
      else
        match rest with
        | t :: rest2 =>
            if l = ['•'] then bulletLoop rest2 (acc ++ [t])
            else if startsBullet l then bulletLoop (t :: rest2) (acc ++ [stripBulletPfx l])
            else bulletLoop (t :: rest2) (appendCont acc l)
        | [] =>
            if startsBullet l then (acc ++ [stripBulletPfx l], [])
            else (appendCont acc l, [])

theorem bulletLoop_nil (acc : List Str) : bulletLoop [] acc = (acc, []) := rfl

theorem bulletLoop_one (l : Str) (acc : List Str) :
    bulletLoop [l] acc =
      if yearOrPresent l then (acc, [l])
      else if startsBullet l then (acc ++ [stripBulletPfx l], [])
      else (appendCont acc l, []) := rfl

theorem bulletLoop_cons (l t : Str) (rest2 acc : List Str) :
    bulletLoop (l :: t :: rest2) acc =
      if yearOrPresent l then (acc, l :: t :: rest2)
      else if l = ['•'] then bulletLoop rest2 (acc ++ [t])
      else if startsBullet l then bulletLoop (t :: rest2) (acc ++ [stripBulletPfx l])
      else bulletLoop (t :: rest2) (appendCont acc l) := rfl

theorem bulletLoop_rem_le_aux (n : Nat) :
    ∀ ls : List Str, ls.length ≤ n → ∀ acc, ((bulletLoop ls acc).2).length ≤ ls.length := by
  induction n with
  | zero =>
      intro ls h acc
      match ls with
      | [] => simp [bulletLoop_nil]
      | _ :: _ => simp at h
  | succ n ih =>
      intro ls h acc
      match ls with
      | [] => simp [bulletLoop_nil]
      | [l] =>
          rw [bulletLoop_one]
          by_cases hy : yearOrPresent l = true
          · rw [if_pos hy]
          · rw [if_neg hy]
            by_cases hb : startsBullet l = true
            · rw [if_pos hb]; simp
            · rw [if_neg hb]; simp
      | l :: t :: rest2 =>
          have hlen : rest2.length + 2 ≤ n + 1 := by simpa using h
          rw [bulletLoop_cons]
          by_cases hy : yearOrPresent l = true
          · rw [if_pos hy]
          · rw [if_neg hy]
            by_cases hd : l = ['•']
            · rw [if_pos hd]
              have h2 := ih rest2 (by omega) (acc ++ [t])
              simp only [List.length_cons]
              omega
            · rw [if_neg hd]
              by_cases hb : startsBullet l = true
              · rw [if_pos hb]
                have h2 := ih (t :: rest2) (by simp only [List.length_cons]; omega)
                  (acc ++ [stripBulletPfx l])
                simp only [List.length_cons] at h2 ⊢
                omega
              · rw [if_neg hb]
                have h2 := ih (t :: rest2) (by simp only [List.length_cons]; omega)
                  (appendCont acc l)
                simp only [List.length_cons] at h2 ⊢
                omega

/-- The remainder returned by `bulletLoop` never exceeds the input in
length. -/
theorem bulletLoop_rem_le (ls : List Str) (acc : List Str) :
    ((bulletLoop ls acc).2).length ≤ ls.length :=
  bulletLoop_rem_le_aux ls.length ls le_rfl acc

/-- The outer scan loop of `extractExperience`: find a company/duration
line, take the following line as role/location, collect bullets, emit.
The fuel argument makes the recursion structural; every iteration
consumes at least one line, so `fuel = ls.length` always suffices
(`expLoop_fuel_ge`). -/
def expLoop : Nat → List Str → List ExpEntry
  | 0, _ => []
  | _, [] => []
  | fuel + 1, l :: rest =>
      if yearOrPresent l && hasAlphaCh l then
        let cd := splitCompanyLine l
        match rest with
        | [] =>
            [{ company := cd.1, role := [], duration := cd.2, location := [], bullets := [] }]
        | rl :: rest2 =>
            let ro := splitRoleLine rl
            let bl := bulletLoop rest2 []
            { company := cd.1, role := ro.1, duration := cd.2, location := ro.2,
              bullets := bl.1 } :: expLoop fuel bl.2
      else expLoop fuel rest

/-- Any fuel at least the number of lines yields the same run: the fuel
bound used by `extractExperience` never cuts the loop short. -/
theorem expLoop_fuel_ge (fuel fuel' : Nat) :
    ∀ ls : List Str, ls.length ≤ fuel → ls.length ≤ fuel' →
      expLoop fuel ls = expLoop fuel' ls := by
  induction fuel generalizing fuel' with
  | zero =>
      intro ls h _
      match ls, fuel' with
      | [], 0 => rfl
      | [], _ + 1 => rfl
      | _ :: _, _ => simp at h
  | succ n ih =>
      intro ls h h'
      match ls, fuel' with
      | [], 0 => rfl
      | [], _ + 1 => rfl
      | _ :: _, 0 => simp at h'
      | l :: rest, m + 1 =>
          show expLoop (n + 1) (l :: rest) = expLoop (m + 1) (l :: rest)
          simp only [expLoop]
          by_cases hy : (yearOrPresent l && hasAlphaCh l) = true
          · rw [if_pos hy, if_pos hy]
            match rest with
            | [] => rfl
            | rl :: rest2 =>
                have hrem := bulletLoop_rem_le rest2 []
                simp only [List.length_cons] at h h'
                dsimp only
                rw [ih m (bulletLoop rest2 []).2 (by omega) (by omega)]
          · rw [if_neg hy, if_neg hy]
            simp only [List.length_cons] at h h'
            exact ih m rest (by omega) (by omega)

/-- `extractExperience`: state machine over the section's non-blank
trimmed lines. -/
def extractExperience (sec : Str) : List ExpEntry :=
  let lines := ((splitNl sec).map trimStr).filter (fun l => !l.isEmpty)
  expLoop lines.length lines

/-! ## Project extractor (`extractProjects`) -/

/-- One project entry. -/
structure Project where
  name : Str
  description : Str
  tech : List Str
  link : Option Str
  bullets : List Str
deriving DecidableEq, Repr

/-- Split on a run of two-or-more whitespace characters
(`split(/\s{2,}/)`, a columnar-layout artifact). -/
def splitWs2Aux : Str → Str → Str → List Str
  | [], cur, pend => if 2 ≤ pend.length then [cur, []] else [cur ++ pend]
  | c :: rest, cur, pend =>
      if isWs c then splitWs2Aux rest cur (pend ++ [c])
      else if 2 ≤ pend.length then cur :: splitWs2Aux rest [c] []
      else splitWs2Aux rest (cur ++ pend ++ [c]) []

/-- `raw.split(/\s{2,}/)` -/
def splitWs2 (s : Str) : List Str := splitWs2Aux s [] []

/-- The technology-token splitter of `addTech`: split on `[,/|]`, trim,
split on double-space runs, strip parentheses, trim, drop empties. -/
def techSplit (raw : Str) : List Str :=
  ((((splitP (fun c => c = ',' || c = '/' || c = '|') raw).map trimStr).flatMap
        splitWs2).map
      (fun s => trimStr (s.filter (fun c => c ≠ '(' && c ≠ ')')))).filter
    (fun s => !s.isEmpty)

/-- `addTech`: union of the current tech set and the new tokens, keeping
first-seen order (`new Set([...tech, ...parts])`). -/
def addTechTo (tech : List Str) (raw : Str) : List Str :=
  firstSeen (tech ++ techSplit raw)

/-- Fixed alternatives of the technology-keyword alternation, case-folded
(`Type\s*Script` and `Spring\s*Boot` are handled separately). -/
def techFixed : List Str :=
  [str "react", str "next", str "node", str "typescript", str "tailwind", str "python",
   str "aws", str "gcp", str "docker", str "kubernetes", str "postgres", str "mongodb",
   str "java", str "javascript", str "c++", str "c#", str "sfml", str "terraform",
   str "prometheus", str "grafana", str "jenkins", str "ci", str "cd", str "microservices"]

/-- A word boundary sits at position `j` of `l` coming from a match (end
of string, or a non-word character follows). -/
def boundaryAt (l : Str) (j : Nat) : Bool :=
  match l.drop j with
  | [] => true
  | c :: _ => !isWordChar c

/-- A two-part alternative `p\s*q` matches at position `i` of the
case-folded line, with a word boundary after it. -/
def flexMatch (l : Str) (i : Nat) (p q : Str) : Bool :=
  p.isPrefixOf (l.drop i) &&
    (let t := l.drop (i + p.length)
     let w := (t.takeWhile isWs).length
     q.isPrefixOf (t.dropWhile isWs) && boundaryAt l (i + p.length + w + q.length))

/-- `techWord.test(line)`: some alternative of the keyword alternation
matches somewhere in the line, inside word boundaries. -/
def techTest (line : Str) : Bool :=
  let l := lowerStr line
  (List.range l.length).any (fun i =>
    (i = 0 || !isWordChar (l.getD (i - 1) ' ')) &&
      (techFixed.any (fun a => a.isPrefixOf (l.drop i) && boundaryAt l (i + a.length)) ||
        flexMatch l i (str "type") (str "script") ||
        flexMatch l i (str "spring") (str "boot")))

/-- `line.split(/\s+/)`: split on runs of one-or-more whitespace. -/
def splitWs1Aux : Str → Str → Str → List Str
  | [], cur, pend => if 1 ≤ pend.length then [cur, []] else [cur]
  | c :: rest, cur, pend =>
      if isWs c then splitWs1Aux rest cur (pend ++ [c])
      else if 1 ≤ pend.length then cur :: splitWs1Aux rest [c] []
      else splitWs1Aux rest (cur ++ [c]) []

def splitWs1 (s : Str) : List Str := splitWs1Aux s [] []

/-- Line 215 of the source: a tech-only line matches the keyword
vocabulary, lacks terminal sentence punctuation, and has at most 8
whitespace-separated words. -/
def looksLikeTech (line : Str) : Bool :=
  techTest line &&
    !(match line.getLast? with
      | some c => c = '.' || c = '!' || c = '?'
      | none => false) &&
    (splitWs1 line).length ≤ 8

/-- `/^OTHERS$/i.test(line)` -/
def othersTest (l : Str) : Bool := lowerStr l = str "others"

/-- `/https?:\/\//i.test(line)` -/
def urlSchemeTest (l : Str) : Bool :=
  hasSubstr (str "http://") (lowerStr l) || hasSubstr (str "https://") (lowerStr l)

/-- `(line.match(/https?:\/\/\S+/i)?.[0] || line).trim()`: the first
URL-shaped substring, or the whole line when the pattern (which needs at
least one character after the scheme) never matches. -/
def urlExtract (l : Str) : Str :=
  match (List.range l.length).find? (fun i =>
      ((str "http://").isPrefixOf ((lowerStr l).drop i) &&
        7 < ((l.drop i).takeWhile (fun c => !isWs c)).length) ||
      ((str "https://").isPrefixOf ((lowerStr l).drop i) &&
        8 < ((l.drop i).takeWhile (fun c => !isWs c)).length)) with
  | some i => trimStr ((l.drop i).takeWhile (fun c => !isWs c))
  | none => trimStr l

/-- The lazily created default entry (`ensureCurrent('Project')`). -/
def ensureCur (cur : Option Project) : Project :=
  cur.getD { name := str "Project", description := [], tech := [], link := none, bullets := [] }

/-- `[description, line].filter(Boolean).join(' ')` -/
def joinDesc (desc l : Str) : Str :=
  if desc.isEmpty then l else if l.isEmpty then desc else desc ++ ' ' :: l

/-- Append a continuation to the last bullet of the list. -/
def contBullets (bs : List Str) (l : Str) : List Str :=
  match bs.getLast? with
  | none => bs
  | some last => bs.dropLast ++ [trimStr (last ++ ' ' :: l)]

/-- Flush the open entry at end of input or at `OTHERS`. -/
def flushCur (cur : Option Project) (acc : List Project) : List Project :=
  match cur with
  | some c => acc ++ [c]
  | none => acc

/-- The per-line state machine of `extractProjects` (before
deduplication): current open entry, bullets-started flag, emitted list. -/
def projLoop : List Str → Option Project → Bool → List Project → List Project
  | [], cur, _, acc => flushCur cur acc
  | l :: rest, cur, started, acc =>
      if othersTest l then flushCur cur acc
      else if l.contains '|' then
        let parts := splitPipe l
        let left := parts.headD []
        let right := (parts.drop 1).headD []
        let c0 : Project :=
          { name := trimStr left, description := [], tech := [], link := none, bullets := [] }
        let c1 := if right.isEmpty then c0 else { c0 with tech := addTechTo c0.tech right }
        projLoop rest (some c1) false (flushCur cur acc)
      else if urlSchemeTest l then
        projLoop rest (some { ensureCur cur with link := some (urlExtract l) }) started acc
      else
        match rest with
        | t :: rest2 =>
            if l = ['•'] then
              projLoop rest2
                (some { ensureCur cur with bullets := (ensureCur cur).bullets ++ [t] }) true acc
            else if startsBullet l then
              projLoop (t :: rest2)
                (some { ensureCur cur with
                          bullets := (ensureCur cur).bullets ++ [stripBulletPfx l] })
                true acc
            else if started && !cur.isNone && !(ensureCur cur).bullets.isEmpty then
              projLoop (t :: rest2)
                (some { ensureCur cur with bullets := contBullets (ensureCur cur).bullets l })
                started acc
            else if looksLikeTech l then
              projLoop (t :: rest2)
                (some { ensureCur cur with tech := addTechTo (ensureCur cur).tech l }) started acc
            else
              projLoop (t :: rest2)
                (some { ensureCur cur with description := joinDesc (ensureCur cur).description l })
                started acc
        | [] =>
            if startsBullet l then
              flushCur
                (some { ensureCur cur with
                          bullets := (ensureCur cur).bullets ++ [stripBulletPfx l] }) acc
            else if started && !cur.isNone && !(ensureCur cur).bullets.isEmpty then
              flushCur
                (some { ensureCur cur with bullets := contBullets (ensureCur cur).bullets l }) acc
            else if looksLikeTech l then
              flushCur
                (some { ensureCur cur with tech := addTechTo (ensureCur cur).tech l }) acc
            else
              flushCur
                (some { ensureCur cur with
                          description := joinDesc (ensureCur cur).description l }) acc

/-- Key characters of the normalization `replace(/[^a-z0-9]+/g, ' ')`
applied after `toLowerCase`. -/
def isKeyCh (c : Char) : Bool := ('a' ≤ c && c ≤ 'z') || c.isDigit

/-- Collapse every run of non-alphanumeric characters to one space
(the flag records being inside such a run). -/
def collapseAux : Bool → Str → Str
  | _, [] => []
  | inRun, c :: rest =>
      if isKeyCh c then c :: collapseAux false rest
      else if inRun then collapseAux true rest
      else ' ' :: collapseAux true rest

def collapseRuns (s : Str) : Str := collapseAux false s

/-- The normalized deduplication key:
`name.toLowerCase().replace(/[^a-z0-9]+/g, ' ').trim()`. -/
def normName (s : Str) : Str := trimStr (collapseRuns (lowerStr s))

/-- The grouping key of one project entry. -/
def projKey (p : Project) : Str := normName p.name

/-- The richness score: length of bullets joined by spaces, plus length
of tech joined by spaces, plus description length. -/
def richness (p : Project) : Nat :=
  (List.intercalate (str " ") p.bullets).length +
    (List.intercalate (str " ") p.tech).length + p.description.length

/-- Keep the strictly richer of the stored entry `q` and the new entry
`p` (`richness(p) > richness(existing)` replaces, ties keep `q`). -/
def richStep (q p : Project) : Project := if richness q < richness p then p else q

/-- `Map.set` on an insertion-ordered association list: replace the value
in place when the key exists (keeping the strictly richer entry), append
otherwise. -/
def insertProj : List (Str × Project) → Str → Project → List (Str × Project)
  | [], k, p => [(k, p)]
  | (k', q) :: rest, k, p =>
      if k' = k then (k', richStep q p) :: rest
      else (k', q) :: insertProj rest k p

/-- One dedup step: `byName.set(key, ...)` keeping the richer entry. -/
def dedupStep (acc : List (Str × Project)) (p : Project) : List (Str × Project) :=
  insertProj acc (projKey p) p

/-- The deduplication pass of `extractProjects`: group by normalized
name, keep the strictly richer entry, list values in first-insertion
order (`Array.from(byName.values())`). -/
def dedupProjects (items : List Project) : List Project :=
  (items.foldl dedupStep []).map (fun e => e.2)

/-- `extractProjects`: the state machine followed by deduplication. -/
def extractProjects (sec : Str) : List Project :=
  dedupProjects
    (projLoop (((splitNl sec).map trimStr).filter (fun l => !l.isEmpty)) none false [])

/-! ## Education extractor (`extractEducation`) -/

/-- One education entry. -/
structure EduEntry where
  school : Str
  degree : Str
  duration : Str
  location : Str
deriving DecidableEq, Repr

/-- Case-folded abbreviated-month alternatives of the education date
pattern (`Jan\.|Feb\.|...|May|...`; `May` has no dot). -/
def eduMonths : List Str :=
  [str "jan.", str "feb.", str "mar.", str "apr.", str "may", str "jun.", str "jul.",
   str "aug.", str "sep.", str "oct.", str "nov.", str "dec."]

/-- Four digits start at position `j`, followed by a word boundary. -/
def fourDigitsAt (l : Str) (j : Nat) : Bool :=
  ((l.drop j).take 4).length = 4 && ((l.drop j).take 4).all Char.isDigit &&
    (match l.drop (j + 4) with
     | [] => true
     | c :: _ => !isWordChar c)

/-- `\b(?:Jan\.|...)\s*\d{4}\b` matches at position `i`, ignoring case. -/
def eduMonthAt (l : Str) (i : Nat) : Bool :=
  (i = 0 || !isWordChar (l.getD (i - 1) ' ')) &&
    eduMonths.any (fun m =>
      m.isPrefixOf ((lowerStr l).drop i) &&
        (let t := l.drop (i + m.length)
         fourDigitsAt l (i + m.length + (t.takeWhile isWs).length)))

/-- `degreeAndDuration.search(...)`: index of the first date match. -/
def eduDateIdx (l : Str) : Option Nat :=
  (List.range l.length).find? (fun i => eduMonthAt l i)

/-- `schoolAndLoc.lastIndexOf(' ', j - 1)` (a negative start index is
clamped to zero, as in JavaScript). -/
def lastSpaceBefore (l : Str) (j : Nat) : Option Nat :=
  (List.range j).reverse.find? (fun i => l.getD i ' ' = ' ') |>.orElse
    (fun _ => if l.getD 0 '.' = ' ' then some 0 else none)

/-- `extractEducation`: single-entry assumption over the first two
non-blank lines. -/
def extractEducation (sec : Str) : List EduEntry :=
  let lines := ((splitNl sec).map trimStr).filter (fun l => !l.isEmpty)
  match lines with
  | l0 :: l1 :: _ =>
      let sl :=
        match lastCommaIdx l0 with
        | none => (l0, ([] : Str))
        | some j =>
            let start := match lastSpaceBefore l0 j with
              | some i => i + 1
              | none => 0
            let location := trimStr (l0.drop start)
            (trimStr (l0.take (l0.length - location.length)), location)
      let dd :=
        match eduDateIdx l1 with
        | some i => (trimStr (l1.take i), trimStr (l1.drop i))
        | none => (l1, ([] : Str))
      [{ school := sl.1, degree := dd.1, duration := dd.2, location := sl.2 }]
  | _ => []

/-! ## Skills extractor (`extractSkills`) -/

/-- `line.match(/^([A-Za-z ]+):\s*(.*)$/)`: the longest letters-and-spaces
prefix must be followed by a colon; the category is that prefix trimmed,
the raw rest is everything after the colon, trimmed. -/
def parseSkillLine (line : Str) : Option (Str × Str) :=
  let pre := line.takeWhile (fun c => c.isAlpha || c = ' ')
  if !pre.isEmpty && line.getD pre.length ' ' = ':' then
    some (trimStr pre, trimStr (line.drop (pre.length + 1)))
  else none

/-- Token list of one skills line: split on commas and slashes, trim,
split double-space runs, trim, drop empties, dedup first-seen. -/
def skillTokens (raw : Str) : List Str :=
  firstSeen
    (((((splitP (fun c => c = ',' || c = '/') raw).map trimStr).flatMap splitWs2).map
        trimStr).filter (fun s => !s.isEmpty))

/-- `skills[category] = ...` on an insertion-ordered association list:
overwrite in place, append when new. -/
def setSkill : List (Str × List Str) → Str → List Str → List (Str × List Str)
  | [], k, v => [(k, v)]
  | (k', v') :: rest, k, v =>
      if k' = k then (k', v) :: rest else (k', v') :: setSkill rest k v

/-- `extractSkills`: one pass over the non-blank lines; non-matching lines
are skipped, duplicate categories are overwritten. -/
def extractSkills (sec : Str) : List (Str × List Str) :=
  (((splitNl sec).map trimStr).filter (fun l => !l.isEmpty)).foldl
    (fun acc line =>
      match parseSkillLine line with
      | some kv => setSkill acc kv.1 (skillTokens kv.2)
      | none => acc)
    []

/-! ## Record assembly (`main`, lines 295-305) -/

/-- The assembled résumé record.  Fields the driver always populates are
plain (`contact` is always a bundle, the collection fields always
lists); `name`, `headline` and `summary` are genuinely optional. -/
structure ResumeRecord where
  name : Option Str
  headline : Option Str
  contact : Option ContactBundle
  summary : Option Str
  skills : List (Str × List Str)
  experience : List ExpEntry
  projects : List Project
  education : List EduEntry
  certifications : List Str
deriving DecidableEq, Repr

/-- `summary.replace(/^\b(?:Summary|Objective)\b/i, '')` -/
def stripSummaryWord (s : Str) : Str :=
  if startsWithWord (str "summary") s then s.drop 7
  else if startsWithWord (str "objective") s then s.drop 9
  else s

/-- The record construction of `main`: parse sections, extract the header
from the whole document's non-blank lines, run each field extractor on
its section (empty string when the section is absent). -/
def assembleRecord (text : Str) : ResumeRecord :=
  let lines := contentLines text
  let hdr := extractHeader lines
  { name := hdr.1
    headline := none
    contact := some hdr.2
    summary :=
      match sectionGet text "summary" with
      | none => none
      | some s =>
          let t := trimStr (stripSummaryWord s)
          if t.isEmpty then none else some t
    skills := extractSkills ((sectionGet text "skills").getD [])
    experience := extractExperience ((sectionGet text "experience").getD [])
    projects := extractProjects ((sectionGet text "projects").getD [])
    education := extractEducation ((sectionGet text "education").getD [])
    certifications := extractList ((sectionGet text "certifications").getD []) }

/-! ## Spec-side definitions

Definitions that phrase the specification's vocabulary (regions,
richness groups, header-region lines) so the claims below can relate the
extractor code to them. -/

/-- Two half-open intervals of line indices occupy disjoint positions. -/
def ivDisjoint (r s : Nat × Nat) : Prop :=
  ∀ j, r.1 ≤ j → j < r.2 → ¬(s.1 ≤ j ∧ j < s.2)

/-- The header interval followed by every section interval. -/
def sectionIntervals (text : Str) : List (Nat × Nat) :=
  (0, firstHeaderIdx text) :: (sectionRegions text).map (fun r => r.2)

/-- All emitted entries sharing one normalized name, in emission order. -/
def groupFor (items : List Project) (k : Str) : List Project :=
  items.filter (fun p => projKey p == k)

/-- The greatest richness score of a group. -/
def maxRichness (g : List Project) : Nat := (g.map richness).foldr Nat.max 0

/-- The specification's choice: the first entry of the group attaining
the maximal richness (strictly richer wins, ties keep the first seen). -/
def specPick (g : List Project) : Option Project :=
  g.find? (fun p => richness p == maxRichness g)

/-- The non-blank lines of the header region (the lines strictly before
the first recognized section label). -/
def headerContentLines (text : Str) : List Str :=
  ((trimmedLines text).take (firstHeaderIdx text)).filter (fun l => !l.isEmpty)

/-- The parsed category/rest pairs of the skills section, in line order. -/
def skillLines (sec : Str) : List (Str × Str) :=
  (((splitNl sec).map trimStr).filter (fun l => !l.isEmpty)).filterMap parseSkillLine

/-- Category lookup in the skills map. -/
def skillsLookup (cat : Str) (m : List (Str × List Str)) : Option (List Str) :=
  (m.find? (fun e => e.1 == cat)).map (fun e => e.2)

/-! ## Support lemmas -/

theorem dropWhile_dropWhile {α : Type} (p : α → Bool) (l : List α) :
    (l.dropWhile p).dropWhile p = l.dropWhile p := by
  induction l with
  | nil => rfl
  | cons a l ih =>
      by_cases h : p a = true
      · simp only [List.dropWhile_cons, h, if_true]
        exact ih
      · simp [List.dropWhile_cons, h]

theorem dropWhile_suffix_self {α : Type} (p : α → Bool) (l : List α) :
    l.dropWhile p <:+ l := by
  induction l with
  | nil => exact List.suffix_refl _
  | cons a l ih =>
      by_cases h : p a = true
      · simp only [List.dropWhile_cons, h, if_true]
        exact ih.trans (List.suffix_cons a l)
      · simp [List.dropWhile_cons, h]

theorem dropWhile_eq_self_of_isPrefix {α : Type} (p : α → Bool) {y z : List α}
    (hy : y.dropWhile p = y) (hz : z <+: y) : z.dropWhile p = z := by
  cases z with
  | nil => rfl
  | cons a z' =>
      obtain ⟨t, ht⟩ := hz
      have hpa : p a = false := by
        by_contra hcon
        have hpa' : p a = true := by
          cases hval : p a
          · exact absurd hval hcon
          · rfl
        have hy' : y = a :: (z' ++ t) := by rw [← ht]; rfl
        rw [hy'] at hy
        simp only [List.dropWhile_cons, hpa', if_true] at hy
        have := dropWhile_len_le p (z' ++ t)
        rw [hy] at this
        simp at this
      simp [List.dropWhile_cons, hpa]

theorem trim_of_clean (u : Str) (h1 : u.dropWhile isWs = u)
    (h2 : u.reverse.dropWhile isWs = u.reverse) : trimStr u = u := by
  unfold trimStr dropTrail
  rw [h1, h2, List.reverse_reverse]

theorem trimStr_lead (s : Str) : (trimStr s).dropWhile isWs = trimStr s := by
  have hidem : (s.dropWhile isWs).dropWhile isWs = s.dropWhile isWs :=
    dropWhile_dropWhile _ _
  have hsfx : (s.dropWhile isWs).reverse.dropWhile isWs <:+ (s.dropWhile isWs).reverse :=
    dropWhile_suffix_self _ _
  have hpre : trimStr s <+: s.dropWhile isWs := by
    have h := List.reverse_prefix.mpr hsfx
    rw [List.reverse_reverse] at h
    exact h
  exact dropWhile_eq_self_of_isPrefix isWs hidem hpre

theorem trimStr_trail (s : Str) :
    (trimStr s).reverse.dropWhile isWs = (trimStr s).reverse := by
  unfold trimStr dropTrail
  rw [List.reverse_reverse]
  exact dropWhile_dropWhile _ _

theorem trimStr_idem (s : Str) : trimStr (trimStr s) = trimStr s :=
  trim_of_clean _ (trimStr_lead s) (trimStr_trail s)

theorem mem_contentLines (text : Str) (l : Str) (h : l ∈ contentLines text) :
    trimStr l = l ∧ l ≠ [] := by
  unfold contentLines at h
  rw [List.mem_filter] at h
  obtain ⟨hmem, hne⟩ := h
  unfold trimmedLines at hmem
  rw [List.mem_map] at hmem
  obtain ⟨x, -, hx⟩ := hmem
  refine ⟨?_, ?_⟩
  · rw [← hx]
    exact trimStr_idem x
  · intro hcon
    rw [hcon] at hne
    simp at hne

theorem headerNonEmpty_eq_self (lines : List Str)
    (h : ∀ l ∈ lines, trimStr l = l ∧ l ≠ []) : headerNonEmpty lines = lines := by
  unfold headerNonEmpty
  rw [List.filter_eq_self]
  intro a ha
  rw [(h a ha).1]
  simpa using (h a ha).2

theorem extractHeader_name (lines : List Str)
    (h : ∀ l ∈ lines, trimStr l = l ∧ l ≠ []) :
    (extractHeader lines).1 = lines.head? := by
  have hf := headerNonEmpty_eq_self lines h
  show (if ((headerNonEmpty lines).headD []).isEmpty then none
        else some (trimStr ((headerNonEmpty lines).headD []))) = lines.head?
  rw [hf]
  cases lines with
  | nil => rfl
  | cons a rest =>
      have ha := h a (List.mem_cons_self a rest)
      have hne : a.isEmpty = false := by
        cases hv : a.isEmpty
        · rfl
        · exact absurd (List.isEmpty_iff.mp hv) ha.2
      simp [hne, ha.1]

theorem findTok_eq_nil_or (p : Str → Bool) (parts : List Str) :
    findTok p parts = [] ∨
      (p (findTok p parts) = true ∧ findTok p parts ∈ parts) := by
  unfold findTok
  cases h : parts.find? p with
  | none => exact Or.inl rfl
  | some a => exact Or.inr ⟨List.find?_some h, List.mem_of_find?_eq_some h⟩

theorem findTok_ne_nil (p : Str → Bool) (parts : List Str) (w : Str)
    (hw : w ∈ parts) (hp : p w = true) (hnonnil : ∀ x ∈ parts, x ≠ []) :
    findTok p parts ≠ [] := by
  unfold findTok
  cases h : parts.find? p with
  | none =>
      exact absurd hp (by simpa using List.find?_eq_none.mp h w hw)
  | some a =>
      simpa using hnonnil a (List.mem_of_find?_eq_some h)

theorem headerParts_ne_nil (lines : List Str) :
    ∀ x ∈ headerParts lines, x ≠ [] := by
  intro x hx
  unfold headerParts contactParts at hx
  rw [List.mem_filter] at hx
  simpa using hx.2

theorem getLast?_cons_or {α : Type} (a : α) (l : List α) :
    (a :: l).getLast? = l.getLast?.or (some a) := by
  induction l generalizing a with
  | nil => rfl
  | cons b t ih =>
      rw [List.getLast?_cons_cons, ih b]
      cases t.getLast? <;> rfl

theorem option_map_or {α β : Type} (f : α → β) (x y : Option α) :
    (x.or y).map f = (x.map f).or (y.map f) := by
  cases x <;> rfl

theorem option_or_some_absorb {α : Type} (x : Option α) (a : α) (y : Option α) :
    (x.or (some a)).or y = x.or (some a) := by
  cases x <;> rfl

theorem skillsLookup_cons (k' : Str) (w : List Str) (rest : List (Str × List Str))
    (cat : Str) :
    skillsLookup cat ((k', w) :: rest) =
      if k' = cat then some w else skillsLookup cat rest := by
  unfold skillsLookup
  by_cases h : k' = cat
  · simp [List.find?_cons, h]
  · simp [List.find?_cons, h]

theorem skillsLookup_setSkill (acc : List (Str × List Str)) (k : Str) (v : List Str)
    (cat : Str) :
    skillsLookup cat (setSkill acc k v) =
      if k = cat then some v else skillsLookup cat acc := by
  induction acc with
  | nil =>
      show skillsLookup cat [(k, v)] = _
      rw [skillsLookup_cons]
  | cons kv rest ih =>
      obtain ⟨k', v'⟩ := kv
      show skillsLookup cat
          (if k' = k then (k', v) :: rest else (k', v') :: setSkill rest k v) = _
      by_cases h : k' = k
      · rw [if_pos h, skillsLookup_cons, skillsLookup_cons]
        subst h
        by_cases h2 : k' = cat
        · simp [h2]
        · simp [h2]
      · rw [if_neg h, skillsLookup_cons, ih, skillsLookup_cons]
        by_cases h2 : k' = cat
        · have hk : ¬k = cat := fun hc => h (h2.trans hc.symm)
          simp [h2, hk]
        · simp [h2]

theorem foldl_skill_filterMap (lines : List Str) (acc : List (Str × List Str)) :
    lines.foldl
        (fun acc line =>
          match parseSkillLine line with
          | some kv => setSkill acc kv.1 (skillTokens kv.2)
          | none => acc)
        acc =
      (lines.filterMap parseSkillLine).foldl
        (fun acc kv => setSkill acc kv.1 (skillTokens kv.2)) acc := by
  induction lines generalizing acc with
  | nil => rfl
  | cons l rest ih =>
      cases h : parseSkillLine l with
      | none => simp [List.foldl_cons, List.filterMap_cons, h, ih]
      | some kv => simp [List.foldl_cons, List.filterMap_cons, h, ih]

theorem skillsLookup_foldl (kvs : List (Str × Str)) (acc : List (Str × List Str))
    (cat : Str) :
    skillsLookup cat
        (kvs.foldl (fun acc kv => setSkill acc kv.1 (skillTokens kv.2)) acc) =
      ((kvs.filter (fun kv => kv.1 == cat)).getLast?.map
          (fun kv => skillTokens kv.2)).or
        (skillsLookup cat acc) := by
  induction kvs generalizing acc with
  | nil => simp [Option.or]
  | cons kv rest ih =>
      rw [List.foldl_cons, ih, skillsLookup_setSkill]
      by_cases h : kv.1 = cat
      · have hb : (kv.1 == cat) = true := by simp [h]
        rw [if_pos h, List.filter_cons, if_pos hb, getLast?_cons_or, option_map_or]
        simp only [Option.map_some']
        rw [option_or_some_absorb]
      · have hb : ¬((kv.1 == cat) = true) := by simp [h]
        rw [if_neg h, List.filter_cons, if_neg hb]

/-- The skills map sends every category to the token list of the last
matching line of the section (the general last-write-wins equation). -/
theorem skills_last_wins (sec : Str) (cat : Str) :
    skillsLookup cat (extractSkills sec) =
      ((skillLines sec).filter (fun kv => kv.1 == cat)).getLast?.map
        (fun kv => skillTokens kv.2) := by
  unfold extractSkills skillLines
  rw [foldl_skill_filterMap, skillsLookup_foldl]
  show _ = ((((((splitNl sec).map trimStr).filter (fun l => !l.isEmpty)).filterMap
      parseSkillLine).filter (fun kv => kv.1 == cat)).getLast?.map
        (fun kv => skillTokens kv.2))
  cases ((((splitNl sec).map trimStr).filter (fun l => !l.isEmpty)).filterMap
      parseSkillLine).filter (fun kv => kv.1 == cat) |>.getLast? <;> rfl

theorem natMax_eq_right {a b : Nat} (h : a ≤ b) : Nat.max a b = b := Nat.max_eq_right h

theorem natMax_eq_left {a b : Nat} (h : b ≤ a) : Nat.max a b = a := Nat.max_eq_left h

theorem natMax_zero (a : Nat) : Nat.max a 0 = a := Nat.max_zero a

theorem natLe_max_left (a b : Nat) : a ≤ Nat.max a b := Nat.le_max_left a b

theorem nat_max_absorb_left (a b c : Nat) (h : b ≤ a) :
    Nat.max a (Nat.max b c) = Nat.max a c := by
  cases Nat.le_total b c with
  | inl hbc => rw [natMax_eq_right hbc]
  | inr hcb => rw [natMax_eq_left hcb, natMax_eq_left h, natMax_eq_left (Nat.le_trans hcb h)]

theorem firstSeenAux_congr (l : List Str) :
    ∀ seen₁ seen₂ : List Str, (∀ x ∈ l, x ∈ seen₁ ↔ x ∈ seen₂) →
      firstSeenAux l seen₁ = firstSeenAux l seen₂ := by
  induction l with
  | nil => intro _ _ _; rfl
  | cons a as ih =>
      intro seen₁ seen₂ hiff
      simp only [firstSeenAux]
      have ha := hiff a (List.mem_cons_self a as)
      by_cases h : a ∈ seen₁
      · rw [if_pos h, if_pos (ha.mp h)]
        exact ih seen₁ seen₂ (fun x hx => hiff x (List.mem_cons_of_mem a hx))
      · rw [if_neg h, if_neg (fun hc => h (ha.mpr hc))]
        refine congrArg (a :: ·) (ih _ _ (fun x hx => ?_))
        simp only [List.mem_append, List.mem_singleton]
        exact or_congr (hiff x (List.mem_cons_of_mem a hx)) Iff.rfl

theorem firstSeenAux_filter_seen (l : List Str) :
    ∀ (seen : List Str) (a : Str), a ∈ seen →
      firstSeenAux l seen = firstSeenAux (l.filter (fun x => !(x == a))) seen := by
  induction l with
  | nil => intro _ _ _; rfl
  | cons b bs ih =>
      intro seen a ha
      by_cases hba : b = a
      · subst hba
        rw [List.filter_cons, if_neg (by simp)]
        simp only [firstSeenAux]
        rw [if_pos ha]
        exact ih seen b ha
      · rw [List.filter_cons, if_pos (by simp [hba])]
        simp only [firstSeenAux]
        by_cases hb : b ∈ seen
        · rw [if_pos hb, if_pos hb]
          exact ih seen a ha
        · rw [if_neg hb, if_neg hb]
          exact congrArg (b :: ·) (ih (seen ++ [b]) a (List.mem_append_left _ ha))

theorem firstSeen_cons (a : Str) (as : List Str) :
    firstSeen (a :: as) = a :: firstSeen (as.filter (fun x => !(x == a))) := by
  unfold firstSeen
  simp only [firstSeenAux]
  rw [if_neg (List.not_mem_nil a)]
  refine congrArg (a :: ·) ?_
  rw [firstSeenAux_filter_seen as ([] ++ [a]) a (by simp)]
  refine firstSeenAux_congr _ _ _ (fun x hx => ?_)
  rw [List.mem_filter] at hx
  have hxa : ¬x = a := by
    have := hx.2
    simp at this
    exact this
  simp [hxa]

theorem mem_of_mem_firstSeenAux (l : List Str) :
    ∀ (seen : List Str) (x : Str), x ∈ firstSeenAux l seen → x ∈ l := by
  induction l with
  | nil => intro _ x hx; exact absurd hx (List.not_mem_nil x)
  | cons a as ih =>
      intro seen x hx
      by_cases h : a ∈ seen
      · have hx' : x ∈ firstSeenAux as seen := by
          have heq : firstSeenAux (a :: as) seen = firstSeenAux as seen := by
            simp only [firstSeenAux]
            rw [if_pos h]
          rw [← heq]
          exact hx
        exact List.mem_cons_of_mem a (ih seen x hx')
      · have heq : firstSeenAux (a :: as) seen = a :: firstSeenAux as (seen ++ [a]) := by
          simp only [firstSeenAux]
          rw [if_neg h]
        rw [heq] at hx
        rcases List.mem_cons.mp hx with hxa | hx'
        · exact hxa ▸ List.mem_cons_self a as
        · exact List.mem_cons_of_mem a (ih _ x hx')

theorem filterMap_congr_mem {α β : Type} (l : List α) (f g : α → Option β)
    (h : ∀ a ∈ l, f a = g a) : l.filterMap f = l.filterMap g := by
  induction l with
  | nil => rfl
  | cons a as ih =>
      rw [List.filterMap_cons, List.filterMap_cons,
        h a (List.mem_cons_self a as),
        ih (fun x hx => h x (List.mem_cons_of_mem a hx))]

theorem maxRichness_cons (p : Project) (g : List Project) :
    maxRichness (p :: g) = Nat.max (richness p) (maxRichness g) := rfl

/-- The Map's running strict-max fold selects exactly the first entry of
the group attaining the maximal richness. -/
theorem find_max_eq_foldl_richStep (g : List Project) :
    ∀ p : Project,
      (p :: g).find? (fun q => richness q == maxRichness (p :: g)) =
        some (g.foldl richStep p) := by
  induction g with
  | nil =>
      intro p
      have hm : maxRichness [p] = richness p := natMax_zero (richness p)
      rw [List.find?_cons_of_pos _ (by simp [hm])]
      rfl
  | cons q g' ih =>
      intro p
      have hm : maxRichness (p :: q :: g') =
          Nat.max (richness p) (Nat.max (richness q) (maxRichness g')) := rfl
      by_cases hlt : richness p < richness q
      · have hble : richness p ≤ Nat.max (richness q) (maxRichness g') :=
          Nat.le_trans (Nat.le_of_lt hlt) (natLe_max_left _ _)
        have hM : maxRichness (p :: q :: g') = maxRichness (q :: g') := by
          rw [hm, natMax_eq_right hble, maxRichness_cons]
        have hplt : richness p < maxRichness (q :: g') := by
          rw [maxRichness_cons]
          exact Nat.lt_of_lt_of_le hlt (natLe_max_left _ _)
        have hpne : (richness p == maxRichness (p :: q :: g')) = false := by
          rw [hM]
          simp only [beq_eq_false_iff_ne, ne_eq]
          omega
        rw [List.find?_cons_of_neg _ (by simp [hpne]), hM, List.foldl_cons]
        have hstep : richStep p q = q := by unfold richStep; rw [if_pos hlt]
        rw [hstep]
        exact ih q
      · have hle : richness q ≤ richness p := Nat.le_of_not_lt hlt
        have hM : maxRichness (p :: q :: g') = maxRichness (p :: g') := by
          rw [hm, nat_max_absorb_left _ _ _ hle, maxRichness_cons]
        have hstep : richStep p q = p := by unfold richStep; rw [if_neg hlt]
        rw [List.foldl_cons, hstep]
        have ihp := ih p
        by_cases hpm : richness p = maxRichness (p :: g')
        · have hcond : (richness p == maxRichness (p :: q :: g')) = true := by
            rw [hM]; simp [hpm]
          rw [List.find?_cons_of_pos _ (by simp [hcond])]
          rw [List.find?_cons_of_pos _ (by simp [hpm])] at ihp
          exact ihp
        · have hpcond : (richness p == maxRichness (p :: q :: g')) = false := by
            rw [hM]; simp [hpm]
          have h1 : richness p ≤ maxRichness (p :: g') := by
            rw [maxRichness_cons]; exact natLe_max_left _ _
          have hqcond : (richness q == maxRichness (p :: q :: g')) = false := by
            rw [hM]
            simp only [beq_eq_false_iff_ne, ne_eq]
            omega
          rw [List.find?_cons_of_neg _ (by simp [hpcond]),
            List.find?_cons_of_neg _ (by simp [hqcond]), hM]
          rw [List.find?_cons_of_neg _ (by simp [hpm])] at ihp
          exact ihp

/-- The Map invariant of the dedup fold: a slot at the front of the
association list accumulates the running strict-max of its group, while
the other items fold into the rest of the list. -/
theorem foldl_dedupStep_cons_slot (items : List Project) :
    ∀ (k : Str) (q : Project) (acc : List (Str × Project)),
      List.foldl dedupStep ((k, q) :: acc) items =
        (k, List.foldl richStep q (items.filter (fun p => projKey p == k))) ::
          List.foldl dedupStep acc (items.filter (fun p => !(projKey p == k))) := by
  induction items with
  | nil => intro k q acc; rfl
  | cons p rest ih =>
      intro k q acc
      rw [List.foldl_cons]
      by_cases h : projKey p = k
      · have hb : (projKey p == k) = true := by simp [h]
        have hstep : dedupStep ((k, q) :: acc) p = (k, richStep q p) :: acc := by
          show (if k = projKey p then (k, richStep q p) :: acc
                else (k, q) :: insertProj acc (projKey p) p) = _
          rw [if_pos h.symm]
        rw [hstep, List.filter_cons, if_pos hb, List.filter_cons,
          if_neg (by simp [hb]), List.foldl_cons]
        exact ih k (richStep q p) acc
      · have hb : (projKey p == k) = false := by simp [h]
        have hstep : dedupStep ((k, q) :: acc) p =
            (k, q) :: insertProj acc (projKey p) p := by
          show (if k = projKey p then (k, richStep q p) :: acc
                else (k, q) :: insertProj acc (projKey p) p) = _
          rw [if_neg (fun hc => h hc.symm)]
        rw [hstep, List.filter_cons, if_neg (by simp [hb]), List.filter_cons,
          if_pos (by simp [hb]), List.foldl_cons]
        exact ih k q (insertProj acc (projKey p) p)

/-- Unfolding one step of the deduplication pass. -/
theorem dedupProjects_cons (p : Project) (rest : List Project) :
    dedupProjects (p :: rest) =
      List.foldl richStep p (rest.filter (fun p' => projKey p' == projKey p)) ::
        dedupProjects (rest.filter (fun p' => !(projKey p' == projKey p))) := by
  unfold dedupProjects
  rw [List.foldl_cons]
  have h0 : dedupStep [] p = [(projKey p, p)] := rfl
  rw [h0, foldl_dedupStep_cons_slot, List.map_cons]

theorem dedupProjects_spec_aux (n : Nat) :
    ∀ items : List Project, items.length ≤ n →
      dedupProjects items =
        (firstSeen (items.map projKey)).filterMap
          (fun k => specPick (groupFor items k)) := by
  induction n with
  | zero =>
      intro items h
      match items with
      | [] => rfl
      | _ :: _ => simp at h
  | succ n ih =>
      intro items h
      match items with
      | [] => rfl
      | p :: rest =>
          simp only [List.length_cons] at h
          have hmapfilter : (rest.map projKey).filter (fun x => !(x == projKey p)) =
              (rest.filter (fun p' => !(projKey p' == projKey p))).map projKey := by
            rw [List.filter_map]
            rfl
          have hgroup_head : groupFor (p :: rest) (projKey p) =
              p :: rest.filter (fun p' => projKey p' == projKey p) := by
            unfold groupFor
            rw [List.filter_cons, if_pos (by simp)]
          rw [dedupProjects_cons, List.map_cons, firstSeen_cons, List.filterMap_cons]
          have hhead : specPick (groupFor (p :: rest) (projKey p)) =
              some (List.foldl richStep p
                (rest.filter (fun p' => projKey p' == projKey p))) := by
            rw [hgroup_head]
            unfold specPick
            exact find_max_eq_foldl_richStep _ p
          rw [hhead]
          congr 1
          rw [hmapfilter]
          rw [ih (rest.filter (fun p' => !(projKey p' == projKey p)))
            (Nat.le_trans (List.length_filter_le _ _) (by omega))]
          refine filterMap_congr_mem _ _ _ (fun k hk => ?_)
          have hk1 : k ∈ (rest.filter (fun p' => !(projKey p' == projKey p))).map projKey :=
            mem_of_mem_firstSeenAux _ _ _ hk
          have hkne : ¬k = projKey p := by
            rw [List.mem_map] at hk1
            obtain ⟨p', hp', hkeq⟩ := hk1
            rw [List.mem_filter] at hp'
            intro hc
            have hpb := hp'.2
            rw [← hkeq] at hc
            simp [hc] at hpb
          have hgr : groupFor (p :: rest) k =
              groupFor (rest.filter (fun p' => !(projKey p' == projKey p))) k := by
            unfold groupFor
            have hpk : ((projKey p == k) = true) → False := by
              simp only [beq_iff_eq]
              intro hc
              exact hkne hc.symm
            rw [List.filter_cons, if_neg hpk, List.filter_filter]
            refine List.filter_congr (fun a _ => ?_)
            by_cases ha : projKey a = k
            · have h1 : (projKey a == k) = true := by simp [ha]
              have h2 : (projKey a == projKey p) = false := by
                simp only [beq_eq_false_iff_ne, ne_eq]
                rw [ha]
                exact fun hc => hkne hc
              rw [h1, h2]
              rfl
            · have h1 : (projKey a == k) = false := by
                simp only [beq_eq_false_iff_ne, ne_eq]
                exact ha
              rw [h1]
              rfl
          rw [hgr]

/-- Uniqueness of the normalized keys of the association list built by
`firstSeenAux`, and freshness relative to the seen set. -/
theorem firstSeenAux_nodup (l : List Str) :
    ∀ seen : List Str,
      (firstSeenAux l seen).Nodup ∧ ∀ x ∈ firstSeenAux l seen, x ∉ seen := by
  induction l with
  | nil => intro seen; exact ⟨List.nodup_nil, fun x hx => absurd hx (List.not_mem_nil x)⟩
  | cons a as ih =>
      intro seen
      by_cases h : a ∈ seen
      · have heq : firstSeenAux (a :: as) seen = firstSeenAux as seen := by
          simp only [firstSeenAux]
          rw [if_pos h]
        rw [heq]
        exact ih seen
      · have heq : firstSeenAux (a :: as) seen = a :: firstSeenAux as (seen ++ [a]) := by
          simp only [firstSeenAux]
          rw [if_neg h]
        rw [heq]
        obtain ⟨hnd, hfresh⟩ := ih (seen ++ [a])
        refine ⟨List.nodup_cons.mpr ⟨fun hc => ?_, hnd⟩, fun x hx => ?_⟩
        · exact hfresh a hc (List.mem_append_right _ (List.mem_singleton_self a))
        · rcases List.mem_cons.mp hx with hxa | hx'
          · exact hxa ▸ h
          · exact fun hc => hfresh x hx' (List.mem_append_left _ hc)

/-- Transfer of key distinctness through `filterMap` when the selection
function returns entries carrying their own key. -/
theorem pairwise_filterMap_keys {α : Type} (keyOf : α → Str) (f : Str → Option α)
    (L : List Str) (hN : L.Nodup) (hf : ∀ k b, f k = some b → keyOf b = k) :
    (L.filterMap f).Pairwise (fun a b => keyOf a ≠ keyOf b) := by
  induction L with
  | nil => exact List.Pairwise.nil
  | cons a t ih =>
      obtain ⟨hha, hht⟩ := List.pairwise_cons.mp hN
      rw [List.filterMap_cons]
      cases hfa : f a with
      | none => exact ih hht
      | some b =>
          refine List.pairwise_cons.mpr ⟨fun c hc => ?_, ih hht⟩
          rw [List.mem_filterMap] at hc
          obtain ⟨k', hk', hfk'⟩ := hc
          rw [hf a b hfa, hf k' c hfk']
          exact hha k' hk'

/-- The deduplicated output has pairwise distinct normalized names. -/
theorem dedupProjects_keys_pairwise (items : List Project) :
    (dedupProjects items).Pairwise (fun a b => projKey a ≠ projKey b) := by
  rw [dedupProjects_spec_aux items.length items Nat.le.refl]
  refine pairwise_filterMap_keys projKey _ _ (firstSeenAux_nodup _ []).1 ?_
  intro k b hfb
  unfold specPick at hfb
  have hmem := List.mem_of_find?_eq_some hfb
  unfold groupFor at hmem
  rw [List.mem_filter] at hmem
  simpa using hmem.2

/-- A list whose entries already have pairwise distinct normalized names
is a fixed point of the deduplication pass. -/
theorem dedup_fixed_of_pairwise (n : Nat) :
    ∀ items : List Project, items.length ≤ n →
      items.Pairwise (fun a b => projKey a ≠ projKey b) →
      dedupProjects items = items := by
  induction n with
  | zero =>
      intro items h _
      match items with
      | [] => rfl
      | _ :: _ => simp at h
  | succ n ih =>
      intro items h hp
      match items with
      | [] => rfl
      | p :: rest =>
          simp only [List.length_cons] at h
          obtain ⟨hhead, htail⟩ := List.pairwise_cons.mp hp
          have hf1 : rest.filter (fun p' => projKey p' == projKey p) = [] := by
            rw [List.filter_eq_nil_iff]
            intro a ha
            simp only [beq_iff_eq]
            intro hc
            exact hhead a ha hc.symm
          have hf2 : rest.filter (fun p' => !(projKey p' == projKey p)) = rest := by
            rw [List.filter_eq_self]
            intro a ha
            have hfalse : (projKey a == projKey p) = false := by
              simp only [beq_eq_false_iff_ne, ne_eq]
              intro hc
              exact hhead a ha hc.symm
            rw [hfalse]
            rfl
          rw [dedupProjects_cons, hf1, hf2, List.foldl_nil]
          rw [ih rest (by omega) htail]

theorem labelKeys_nodup : labelKeys.Nodup := by decide

theorem insertByIdx_perm (x : String × Nat) (l : List (String × Nat)) :
    List.Perm (insertByIdx x l) (x :: l) := by
  induction l with
  | nil => exact List.Perm.refl _
  | cons y ys ih =>
      show List.Perm (if x.2 < y.2 then x :: y :: ys else y :: insertByIdx x ys) (x :: y :: ys)
      by_cases h : x.2 < y.2
      · rw [if_pos h]
      · rw [if_neg h]
        exact (List.Perm.cons y ih).trans (List.Perm.swap x y ys)

theorem sortByIdx_perm (l : List (String × Nat)) : List.Perm (sortByIdx l) l := by
  induction l with
  | nil => exact List.Perm.refl _
  | cons x xs ih =>
      show List.Perm (insertByIdx x (sortByIdx xs)) (x :: xs)
      exact (insertByIdx_perm x (sortByIdx xs)).trans (List.Perm.cons x ih)

theorem pairwise_insertByIdx (x : String × Nat) (l : List (String × Nat))
    (h : l.Pairwise (fun a b => a.2 ≤ b.2)) :
    (insertByIdx x l).Pairwise (fun a b => a.2 ≤ b.2) := by
  induction l with
  | nil => exact List.pairwise_singleton _ _
  | cons y ys ih =>
      obtain ⟨hy, hys⟩ := List.pairwise_cons.mp h
      show (if x.2 < y.2 then x :: y :: ys else y :: insertByIdx x ys).Pairwise _
      by_cases hc : x.2 < y.2
      · rw [if_pos hc]
        refine List.pairwise_cons.mpr ⟨?_, h⟩
        intro b hb
        rcases List.mem_cons.mp hb with hb' | hb'
        · rw [hb']
          exact Nat.le_of_lt hc
        · exact Nat.le_trans (Nat.le_of_lt hc) (hy b hb')
      · rw [if_neg hc]
        refine List.pairwise_cons.mpr ⟨?_, ih hys⟩
        intro b hb
        have hmem := (insertByIdx_perm x ys).mem_iff.mp hb
        rcases List.mem_cons.mp hmem with hb' | hb'
        · rw [hb']
          exact Nat.le_of_not_lt hc
        · exact hy b hb'

theorem pairwise_sortByIdx (l : List (String × Nat)) :
    (sortByIdx l).Pairwise (fun a b => a.2 ≤ b.2) := by
  induction l with
  | nil => exact List.Pairwise.nil
  | cons x xs ih => exact pairwise_insertByIdx x (sortByIdx xs) ih

theorem countP_beq_nodup {α : Type} [BEq α] [LawfulBEq α] (l : List α) (k : α)
    (h : l.Nodup) : l.countP (fun x => x == k) = if k ∈ l then 1 else 0 := by
  induction l with
  | nil => rfl
  | cons a t ih =>
      obtain ⟨ha, ht⟩ := List.pairwise_cons.mp h
      rw [List.countP_cons, ih ht]
      by_cases hak : a = k
      · subst hak
        have hnot : a ∉ t := fun hc => (ha a hc) rfl
        rw [if_neg hnot, if_pos (List.mem_cons_self a t)]
        simp
      · have hka : ¬k = a := fun hc => hak hc.symm
        have h1 : (a == k) = false := by simp [hak]
        rw [h1]
        by_cases hkt : k ∈ t <;> simp [List.mem_cons, hka, hkt]

theorem countP_fst_map (m : List String) (i : Nat) (k : String) :
    (m.map (fun k' => ((k', i) : String × Nat))).countP (fun e => e.1 == k) =
      m.countP (fun x => x == k) := by
  induction m with
  | nil => rfl
  | cons a t ih => simp [List.countP_cons, ih]

theorem headerScanAux_countP (lines : List Str) :
    ∀ (i : Nat) (seen : List String) (k : String),
      (k ∈ seen → (headerScanAux lines i seen).countP (fun e => e.1 == k) = 0) ∧
        (headerScanAux lines i seen).countP (fun e => e.1 == k) ≤ 1 := by
  induction lines with
  | nil =>
      intro i seen k
      exact ⟨fun _ => rfl, Nat.zero_le 1⟩
  | cons l rest ih =>
      intro i seen k
      have heq : headerScanAux (l :: rest) i seen =
          (labelKeys.filter (fun k' => !seen.contains k' && labelMatch k' l)).map
              (fun k' => (k', i)) ++
            headerScanAux rest (i + 1)
              (seen ++ labelKeys.filter (fun k' => !seen.contains k' && labelMatch k' l)) :=
        rfl
      set newly := labelKeys.filter (fun k' => !seen.contains k' && labelMatch k' l)
        with hnewly
      have hnodup : newly.Nodup := labelKeys_nodup.filter _
      rw [heq, List.countP_append, countP_fst_map, countP_beq_nodup newly k hnodup]
      by_cases hseen : k ∈ seen
      · have hnew : k ∉ newly := by
          intro hc
          rw [hnewly, List.mem_filter] at hc
          have hand := hc.2
          simp only [Bool.and_eq_true, Bool.not_eq_true'] at hand
          have hcontra : seen.contains k = true := List.elem_iff.mpr hseen
          rw [hand.1] at hcontra
          exact Bool.false_ne_true hcontra
        rw [if_neg hnew, (ih (i + 1) (seen ++ newly) k).1 (List.mem_append_left _ hseen)]
        exact ⟨fun _ => rfl, by omega⟩
      · by_cases hnew : k ∈ newly
        · rw [if_pos hnew,
            (ih (i + 1) (seen ++ newly) k).1 (List.mem_append_right _ hnew)]
          exact ⟨fun hc => absurd hc hseen, by omega⟩
        · rw [if_neg hnew]
          have hrec := (ih (i + 1) (seen ++ newly) k).2
          exact ⟨fun hc => absurd hc hseen, by omega⟩

/-- Every recorded header line carries a key from the fixed label set,
not yet seen, whose anchored pattern matches its line and no earlier
line of the scanned segment. -/
theorem headerScanAux_first (lines : List Str) :
    ∀ (i : Nat) (seen : List String), ∀ e ∈ headerScanAux lines i seen,
      e.1 ∈ labelKeys ∧ e.1 ∉ seen ∧ i ≤ e.2 ∧
        labelMatch e.1 (lines.getD (e.2 - i) []) = true ∧
        ∀ j, j < e.2 - i → labelMatch e.1 (lines.getD j []) = false := by
  induction lines with
  | nil => intro i seen e he; exact absurd he (List.not_mem_nil e)
  | cons l rest ih =>
      intro i seen e he
      have heq : headerScanAux (l :: rest) i seen =
          (labelKeys.filter (fun k' => !seen.contains k' && labelMatch k' l)).map
              (fun k' => (k', i)) ++
            headerScanAux rest (i + 1)
              (seen ++ labelKeys.filter (fun k' => !seen.contains k' && labelMatch k' l)) :=
        rfl
      set newly := labelKeys.filter (fun k' => !seen.contains k' && labelMatch k' l)
        with hnewly
      rw [heq] at he
      rcases List.mem_append.mp he with hm | hm
      · rw [List.mem_map] at hm
        obtain ⟨k', hk', rfl⟩ := hm
        rw [hnewly, List.mem_filter] at hk'
        obtain ⟨hkl, hcond⟩ := hk'
        simp only [Bool.and_eq_true, Bool.not_eq_true'] at hcond
        refine ⟨hkl, ?_, Nat.le.refl, ?_, ?_⟩
        · intro hc
          have hcontra : seen.contains k' = true := List.elem_iff.mpr hc
          rw [hcond.1] at hcontra
          exact Bool.false_ne_true hcontra
        · have h0 : (i - i : Nat) = 0 := by omega
          show labelMatch k' ((l :: rest).getD (i - i) []) = true
          rw [h0, List.getD_cons_zero]
          exact hcond.2
        · intro j hj
          have : (i - i : Nat) = 0 := by omega
          rw [this] at hj
          exact absurd hj (Nat.not_lt_zero j)
      · obtain ⟨h1, h2, h3, h4, h5⟩ := ih (i + 1) (seen ++ newly) e hm
        refine ⟨h1, fun hc => h2 (List.mem_append_left _ hc), by omega, ?_, ?_⟩
        · have harith : e.2 - i = (e.2 - (i + 1)) + 1 := by omega
          rw [harith, List.getD_cons_succ]
          exact h4
        · intro j hj
          match j with
          | 0 =>
              rw [List.getD_cons_zero]
              cases hval : labelMatch e.1 l with
              | false => rfl
              | true =>
                  exfalso
                  apply h2
                  refine List.mem_append_right _ ?_
                  rw [hnewly, List.mem_filter]
                  refine ⟨h1, ?_⟩
                  have hnotseen : e.1 ∉ seen := fun hc => h2 (List.mem_append_left _ hc)
                  have hcf : seen.contains e.1 = false := by
                    cases hcv : seen.contains e.1 with
                    | false => rfl
                    | true => exact absurd (List.elem_iff.mp hcv) hnotseen
                  rw [Bool.and_eq_true, hcf]
                  exact ⟨rfl, hval⟩
          | j' + 1 =>
              have hj' : j' < e.2 - (i + 1) := by omega
              rw [List.getD_cons_succ]
              exact h5 j' hj'

theorem regionsOf_start (hs : List (String × Nat)) (n : Nat) :
    ∀ r ∈ regionsOf hs n, ∃ e ∈ hs, r.2.1 = e.2 + 1 := by
  induction hs with
  | nil => intro r hr; exact absurd hr (List.not_mem_nil r)
  | cons h0 t ih =>
      intro r hr
      obtain ⟨k, i⟩ := h0
      rcases List.mem_cons.mp hr with hr0 | hr'
      · exact ⟨(k, i), List.mem_cons_self _ _, by rw [hr0]⟩
      · obtain ⟨e, he, heq⟩ := ih r hr'
        exact ⟨e, List.mem_cons_of_mem _ he, heq⟩

/-- Consecutive region intervals chain: each region ends no later than
the next one starts. -/
theorem regionsOf_chain (hs : List (String × Nat)) (n : Nat)
    (h : hs.Pairwise (fun a b => a.2 ≤ b.2)) :
    (regionsOf hs n).Pairwise (fun r s => r.2.2 ≤ s.2.1) := by
  induction hs with
  | nil => exact List.Pairwise.nil
  | cons h0 t ih =>
      obtain ⟨hh, ht⟩ := List.pairwise_cons.mp h
      obtain ⟨k, i⟩ := h0
      refine List.pairwise_cons.mpr ⟨?_, ih ht⟩
      intro s hs'
      obtain ⟨e, he, heq⟩ := regionsOf_start t n s hs'
      cases t with
      | nil => exact absurd he (List.not_mem_nil e)
      | cons h1 t' =>
          show h1.2 ≤ s.2.1
          rw [heq]
          obtain ⟨hh1, -⟩ := List.pairwise_cons.mp ht
          rcases List.mem_cons.mp he with rfl | he'
          · omega
          · have := hh1 e he'
            omega

/-! ## Claims -/

/-- C1, counterexample: on the contact line `https://github.com/u` the
single token is claimed by both the website field (it has a dot, no `@`,
and contains `http`) and the github field (it contains `github.com`), so
the same token does appear as the value of two different ContactBundle
fields, contrary to the claim. -/
theorem contact_token_shared_counterexample :
    (extractHeader [str "Jane", str "https://github.com/u"]).2.website =
        str "https://github.com/u" ∧
      (extractHeader [str "Jane", str "https://github.com/u"]).2.github =
        str "https://github.com/u" := by
  constructor <;> rfl

/-- C1, amended: each contact field is populated independently by the
first token matching its own signature, so one token can be claimed by
several fields; exclusivity does hold between email and website, because
the website signature requires the absence of `@`: a populated email
field never equals the website field. -/
theorem contact_email_website_exclusive (lines : List Str)
    (h : (extractHeader lines).2.email ≠ []) :
    (extractHeader lines).2.email ≠ (extractHeader lines).2.website := by
  have he : (extractHeader lines).2.email = findTok hasAt (headerParts lines) := rfl
  have hw : (extractHeader lines).2.website =
      findTok websiteTest (headerParts lines) := rfl
  rw [he] at h ⊢
  rw [hw]
  rcases findTok_eq_nil_or hasAt (headerParts lines) with h1 | h1
  · exact absurd h1 h
  · rcases findTok_eq_nil_or websiteTest (headerParts lines) with h2 | h2
    · rw [h2]
      exact h
    · intro heq
      have hat := h1.1
      rw [heq] at hat
      have hno : hasAt (findTok websiteTest (headerParts lines)) = false := by
        have hweb := h2.1
        unfold websiteTest at hweb
        simp only [Bool.and_eq_true] at hweb
        simpa using hweb.1.2
      rw [hat] at hno
      simp at hno

/-- C1, witness for the amended theorem at a concrete contact line. -/
theorem contact_email_website_exclusive_witness :
    (extractHeader [str "Jane", str "a@b.com | https://malik.dev"]).2.email ≠ [] ∧
      (extractHeader [str "Jane", str "a@b.com | https://malik.dev"]).2.email ≠
        (extractHeader [str "Jane", str "a@b.com | https://malik.dev"]).2.website :=
  ⟨by decide, contact_email_website_exclusive _ (by decide)⟩

/-- C2, counterexample: a document whose contact line yields no matching
token still gets a present contact bundle whose fields are all empty
strings (and the bundle is present for every input), not an absent
contact field as the claim requires. -/
theorem contact_defaulted_counterexample :
    (assembleRecord (str "Jane Doe\nhello there\nSkills\nA: b")).contact =
      some { email := [], phone := [], website := [], linkedin := [], github := [],
             location := [] } := by
  rfl

/-- C2, amended: only name (and summary) are absent-capable — the name is
absent exactly when the document has no non-blank line — while the
contact field is always present, populated with empty-string defaults
(location always empty); the collection fields are always present as
possibly-empty collections. -/
theorem record_presence_amended (text : Str) :
    ((assembleRecord text).name = none ↔ contentLines text = []) ∧
      (assembleRecord text).contact = some (extractHeader (contentLines text)).2 ∧
      (extractHeader (contentLines text)).2.location = [] := by
  refine ⟨?_, rfl, rfl⟩
  have hname : (assembleRecord text).name = (extractHeader (contentLines text)).1 := rfl
  rw [hname, extractHeader_name _ (fun l hl => mem_contentLines text l hl)]
  cases contentLines text <;> simp

/-- C5, counterexample: for the document `Skills\nPython: x` the header
region contains no non-blank line, yet the assembled record's name is
`Skills` (the first non-blank line of the whole document), not absent as
the claim requires. -/
theorem name_header_region_counterexample :
    headerContentLines (str "Skills\nPython: x") = [] ∧
      (assembleRecord (str "Skills\nPython: x")).name = some (str "Skills") := by
  constructor <;> rfl

/-- C5, amended: the record's name is the first non-blank line of the
whole document (absent only when the whole document is blank); it
coincides with the header region's first non-blank line whenever the
header region has one. -/
theorem name_first_nonblank_of_document (text : Str) :
    (assembleRecord text).name = (contentLines text).head? ∧
      (headerContentLines text ≠ [] →
        (assembleRecord text).name = (headerContentLines text).head?) := by
  have h1 : (assembleRecord text).name = (contentLines text).head? := by
    have hname : (assembleRecord text).name = (extractHeader (contentLines text)).1 := rfl
    rw [hname, extractHeader_name _ (fun l hl => mem_contentLines text l hl)]
  refine ⟨h1, fun hne => ?_⟩
  rw [h1]
  have hsplit : contentLines text =
      headerContentLines text ++
        ((trimmedLines text).drop (firstHeaderIdx text)).filter (fun l => !l.isEmpty) := by
    unfold contentLines headerContentLines
    rw [← List.filter_append, List.take_append_drop]
  rw [hsplit]
  cases hh : headerContentLines text with
  | nil => exact absurd hh hne
  | cons a rest => simp

/-- C5, witness for the amended theorem on a document with a non-blank
header region. -/
theorem name_first_nonblank_of_document_witness :
    headerContentLines (str "Jane\nSummary\nhi") ≠ [] ∧
      (assembleRecord (str "Jane\nSummary\nhi")).name =
        (headerContentLines (str "Jane\nSummary\nhi")).head? :=
  ⟨by decide, (name_first_nonblank_of_document (str "Jane\nSummary\nhi")).2 (by decide)⟩

/-- C6, counterexample: the token `example.org` contains a dot and is
claimed by none of email, linkedin, github — yet it is not classified as
website either, because the source additionally requires one of the
substrings `malik`, `sha256`, `http`. -/
theorem website_allowlist_counterexample :
    hasDot (str "example.org") = true ∧
      (extractHeader [str "Jane", str "example.org"]).2 =
        { email := [], phone := [], website := [], linkedin := [], github := [],
          location := [] } := by
  constructor <;> rfl

/-- C6, amended: a populated website field always satisfies the full
source signature — a dot, no `@`, and one of the substrings `malik`,
`sha256`, `http` (case-insensitive) — and conversely some website token
is claimed whenever any token of the contact line satisfies that
signature; being unclaimed by linkedin or github is not part of the
condition. -/
theorem website_requires_allowlist (lines : List Str) :
    ((extractHeader lines).2.website ≠ [] →
        websiteTest ((extractHeader lines).2.website) = true) ∧
      (∀ p ∈ headerParts lines, websiteTest p = true →
        (extractHeader lines).2.website ≠ []) := by
  have hw : (extractHeader lines).2.website =
      findTok websiteTest (headerParts lines) := rfl
  constructor
  · intro hne
    rw [hw] at hne ⊢
    rcases findTok_eq_nil_or websiteTest (headerParts lines) with h | h
    · exact absurd h hne
    · exact h.1
  · intro p hp hwp
    rw [hw]
    exact findTok_ne_nil websiteTest (headerParts lines) p hp hwp (headerParts_ne_nil lines)

/-- C6, witness for the amended theorem at a concrete allowlisted token. -/
theorem website_requires_allowlist_witness :
    (extractHeader [str "Jane", str "https://malik.dev"]).2.website ≠ [] ∧
      websiteTest ((extractHeader [str "Jane", str "https://malik.dev"]).2.website) = true ∧
      str "https://malik.dev" ∈ headerParts [str "Jane", str "https://malik.dev"] ∧
      websiteTest (str "https://malik.dev") = true :=
  ⟨by decide, (website_requires_allowlist _).1 (by decide), by decide, by decide⟩

/-- C7: on the experience section
`Acme Corp  Jan 2020 - Present\nEngineer, Remote\n• Built the thing\nimproved performance`
the extractor emits exactly one entry with company `Acme Corp`,
duration `Jan 2020 - Present`, role `Engineer`, location `Remote`, and
the unmarked line folded into the single bullet with one space. -/
theorem experience_scenario_b :
    extractExperience
        (str "Acme Corp  Jan 2020 - Present\nEngineer, Remote\n• Built the thing\nimproved performance") =
      [{ company := str "Acme Corp", role := str "Engineer",
         duration := str "Jan 2020 - Present", location := str "Remote",
         bullets := [str "Built the thing improved performance"] }] := by
  rfl

/-- C10: when two or more colon-delimited lines of the skills section
share the same trimmed category, the skills map sends that category to
the deduplicated token list of the last such line only; tokens from the
earlier lines are discarded, not merged. -/
theorem skills_last_duplicate_wins (sec : Str) (cat : Str)
    (h : 2 ≤ ((skillLines sec).filter (fun kv => kv.1 == cat)).length) :
    skillsLookup cat (extractSkills sec) =
      ((skillLines sec).filter (fun kv => kv.1 == cat)).getLast?.map
        (fun kv => skillTokens kv.2) :=
  skills_last_wins sec cat

/-- C10, witness: a section with two `A:` lines maps `A` to the tokens of
the second line. -/
theorem skills_last_duplicate_wins_witness :
    2 ≤ ((skillLines (str "A: x, y\nA: z")).filter (fun kv => kv.1 == str "A")).length ∧
      skillsLookup (str "A") (extractSkills (str "A: x, y\nA: z")) =
        ((skillLines (str "A: x, y\nA: z")).filter
            (fun kv => kv.1 == str "A")).getLast?.map (fun kv => skillTokens kv.2) ∧
      skillsLookup (str "A") (extractSkills (str "A: x, y\nA: z")) = some [str "z"] :=
  ⟨by decide, skills_last_duplicate_wins (str "A: x, y\nA: z") (str "A") (by decide),
    by decide⟩

/-- C3: each section label is matched at most once (its entry count in
the recognized header-line list is at most one), every recorded match
sits at the first whole-line occurrence of its label (case-insensitivity
is part of `labelMatch`), matches are ordered by line position rather
than fixed label order, and the header interval plus the per-label
region intervals are pairwise disjoint: each line position of the text
belongs to at most one section. -/
theorem section_segmentation_sound (text : Str) :
    (∀ k : String, (sortedHeaderLines text).countP (fun e => e.1 == k) ≤ 1) ∧
      ((sortedHeaderLines text).all (fun e =>
          labelMatch e.1 ((trimmedLines text).getD e.2 []) &&
            (List.range e.2).all
              (fun j => !labelMatch e.1 ((trimmedLines text).getD j []))) = true) ∧
      (sortedHeaderLines text).Pairwise (fun a b => a.2 ≤ b.2) ∧
      (sectionIntervals text).Pairwise ivDisjoint := by
  refine ⟨?_, ?_, ?_, ?_⟩
  · intro k
    show (sortByIdx (headerScan (trimmedLines text))).countP (fun e => e.1 == k) ≤ 1
    rw [(sortByIdx_perm _).countP_eq]
    exact (headerScanAux_countP (trimmedLines text) 0 [] k).2
  · rw [List.all_eq_true]
    intro e he
    have hmem : e ∈ headerScan (trimmedLines text) := (sortByIdx_perm _).mem_iff.mp he
    obtain ⟨-, -, -, h4, h5⟩ := headerScanAux_first (trimmedLines text) 0 [] e hmem
    rw [Bool.and_eq_true]
    rw [Nat.sub_zero] at h4
    refine ⟨h4, ?_⟩
    rw [List.all_eq_true]
    intro j hj
    rw [List.mem_range] at hj
    have hfalse := h5 j (by omega)
    rw [hfalse]
    rfl
  · exact pairwise_sortByIdx _
  · show ((0, firstHeaderIdx text) ::
        (sectionRegions text).map (fun r => r.2)).Pairwise ivDisjoint
    refine List.pairwise_cons.mpr ⟨?_, ?_⟩
    · intro iv hiv
      rw [List.mem_map] at hiv
      obtain ⟨r, hr, rfl⟩ := hiv
      obtain ⟨e, he, heq⟩ := regionsOf_start (sortedHeaderLines text) _ r hr
      intro j hj1 hj2 hcon
      obtain ⟨hs1, -⟩ := hcon
      rw [heq] at hs1
      have hfirst : firstHeaderIdx text ≤ e.2 := by
        cases hcase : sortedHeaderLines text with
        | nil => rw [hcase] at he; exact absurd he (List.not_mem_nil e)
        | cons h0 t =>
            have hidx : firstHeaderIdx text = h0.2 := by
              unfold firstHeaderIdx
              rw [hcase]
            rw [hidx]
            have hpw := pairwise_sortByIdx (headerScan (trimmedLines text))
            have hpw' : (h0 :: t).Pairwise (fun a b => a.2 ≤ b.2) := by
              rw [← hcase]
              exact hpw
            rw [hcase] at he
            rcases List.mem_cons.mp he with rfl | he'
            · exact Nat.le.refl
            · exact (List.pairwise_cons.mp hpw').1 e he'
      simp only at hj2
      omega
    · have hchain := regionsOf_chain (sortedHeaderLines text)
        (trimmedLines text).length (pairwise_sortByIdx _)
      refine List.Pairwise.map (fun r => r.2) ?_ hchain
      intro r s hle j hj1 hj2 hcon
      obtain ⟨hc1, -⟩ := hcon
      simp only at hj1 hj2 hc1
      omega

/-- C4: deduplication retains exactly one entry per name normalized to
lowercase alphanumerics-and-spaces — namely the first-seen entry of
maximal richness in its group (a strictly higher richness replaces, ties
keep the first seen) — and the output lists the surviving entries in the
order their normalized names were first encountered, not re-sorted by
richness. -/
theorem dedup_keeps_first_richest (items : List Project) :
    dedupProjects items =
      (firstSeen (items.map projKey)).filterMap
        (fun k => specPick (groupFor items k)) :=
  dedupProjects_spec_aux items.length items Nat.le.refl

/-- C8: the deduplication step of the project extractor is idempotent —
applying it to its own output returns that output unchanged, in the same
order. -/
theorem dedup_idempotent (items : List Project) :
    dedupProjects (dedupProjects items) = dedupProjects items :=
  dedup_fixed_of_pairwise (dedupProjects items).length (dedupProjects items)
    Nat.le.refl (dedupProjects_keys_pairwise items)

/-- C9: the empty input blob yields a record whose fields are all absent
or empty, with no failure — and every extraction function of this
embedding is a total Lean function by construction. -/
theorem empty_blob_empty_record :
    assembleRecord (str "") =
      { name := none, headline := none,
        contact := some { email := [], phone := [], website := [], linkedin := [],
                          github := [], location := [] },
        summary := none, skills := [], experience := [], projects := [], education := [],
        certifications := [] } := by
  rfl

end ResumeExtract

